import Mathlib

/-!
Verification of the biosimd nucleotide bit-packing codec.

The Go package (src/unnamed/part_000, package biosimd) converts between a
one-code-per-byte "unpacked" representation (4-bit codes, values 0-15) and a
two-codes-per-byte packed nibble representation, and computes reverse
complements, dispatching between scalar loops (short inputs) and SSE assembly
routines (src/biosimd/biosimd_amd64.s) for long inputs.

Buffers are modelled as byte memories `Mem = Nat → Nat` (a Go slice is a
memory together with its length); 16-byte SSE vectors are modelled as
`Vec = Nat → Nat` read at indices 0..15.  Byte values are Nats kept below 256
by hypothesis (Go's byte type).  Each assembly routine is translated
instruction-by-instruction: every XMM operation becomes a byte-indexed
function on `Vec`, pointer arithmetic becomes offset arithmetic, and each
do-while loop becomes a well-founded recursion on the remaining pointer
distance.  A Go function that can panic is modelled as returning
`Except String Mem` carrying the panic message.
-/

namespace BioSimd

/-- A byte buffer / memory: the byte at each offset. -/
abbrev Mem := Nat → Nat

/-- A 16-byte SSE vector, indexed 0..15. -/
abbrev Vec := Nat → Nat

/-- Write a single byte. -/
def writeB (m : Mem) (i v : Nat) : Mem := fun j => if j = i then v else m j

/-- MOVOU load: read a 16-byte vector at offset `a`. -/
def readVec (m : Mem) (a : Nat) : Vec := fun k => m (a + k)

/-- MOVOU store: write a 16-byte vector at offset `a`. -/
def writeVec (m : Mem) (a : Nat) (v : Vec) : Mem :=
  fun j => if a ≤ j ∧ j < a + 16 then v (j - a) else m j

/-- Build a concrete memory from a list of bytes (zero beyond the end). -/
def mkMem (l : List Nat) : Mem := fun i => l.getD i 0

/-! ### SSE instruction semantics (byte-indexed)

Lanes are 64 bit = 8 bytes, so byte `k` lives in the lane `k / 8` and
crossing a lane boundary means crossing a multiple of 8. -/

/-- PAND with the constant Mask0f0f (0x0f in every byte): keep the low nibble
of each byte (`b & 0x0f = b % 16`). -/
def pand0f (v : Vec) : Vec := fun k => v k % 16

/-- PSRLQ $4: shift each 64-bit lane right by 4 bits.  Byte `k` receives its
low nibble from the high nibble of byte `k` and its high nibble from the low
nibble of byte `k+1` of the same lane (nothing for the top byte of a lane). -/
def psrlq4 (v : Vec) : Vec := fun k =>
  if k % 8 = 7 then v k / 16 else v k / 16 + v (k + 1) % 16 * 16

/-- PSLLQ $12: shift each 64-bit lane left by 12 bits.  Byte `k` receives its
low nibble from the high nibble of byte `k-2` and its high nibble from the
low nibble of byte `k-1` of the same lane (zeros shifted in at the bottom). -/
def psllq12 (v : Vec) : Vec := fun k =>
  if k % 8 = 0 then 0
  else if k % 8 = 1 then v (k - 1) % 16 * 16
  else v (k - 2) / 16 + v (k - 1) % 16 * 16

/-- POR: bytewise or. -/
def por (a b : Vec) : Vec := fun k => Nat.lor (a k) (b k)

/-- PXOR: bytewise xor. -/
def pxorv (a b : Vec) : Vec := fun k => Nat.xor (a k) (b k)

/-- PADDB: bytewise add modulo 256. -/
def paddb (a b : Vec) : Vec := fun k => (a k + b k) % 256

/-- PSHUFB: byte `k` of the result is 0 if bit 7 of index byte `k` is set,
else byte `idx k & 15` of `x`.  (In Go assembly `PSHUFB Xidx, Xdata`
shuffles the data register by the index register.) -/
def pshufb (x idx : Vec) : Vec :=
  fun k => if idx k % 256 ≥ 128 then 0 else x (idx k % 16)

/-- PUNPCKLBW (Go operand order `PUNPCKLBW Xb, Xa`): interleave the low 8
bytes, even result bytes from `a`, odd from `b`. -/
def punpcklbw (a b : Vec) : Vec :=
  fun k => if k % 2 = 0 then a (k / 2) else b (k / 2)

/-- PUNPCKHBW (Go operand order `PUNPCKHBW Xb, Xa`): interleave the high 8
bytes, even result bytes from `a`, odd from `b`. -/
def punpckhbw (a b : Vec) : Vec :=
  fun k => if k % 2 = 0 then a (k / 2 + 8) else b (k / 2 + 8)

/-! ### Assembly data constants (biosimd_amd64.s, DATA directives) -/

/-- DATA Mask0303: 0x03 in every byte. -/
def Mask0303 : Vec := fun _ => 3

/-- DATA Reverse8: bytes 15,14,...,1,0 (a full-vector byte reversal
permutation for PSHUFB). -/
def Reverse8 : Vec := fun k => 15 - k

/-- DATA Reverse8Minus16: bytes 0xff,0xfe,...,0xf0, i.e. `(-1 - k) mod 256`;
adding the broadcast length n yields PSHUFB indices n-1-k with the high bit
set (hence zeroing) for k ≥ n. -/
def Reverse8Minus16 : Vec := fun k => 255 - k

/-- DATA GatherOddLow: PSHUFB indices 1,3,5,...,15 then eight 0xff bytes:
gather the odd-position bytes into the low half, zero the high half. -/
def GatherOddLow : Vec := fun k => if k < 8 then 2 * k + 1 else 255

/-- DATA GatherOddHigh: eight 0xff bytes then indices 1,3,...,15: gather the
odd-position bytes into the high half, zero the low half. -/
def GatherOddHigh : Vec := fun k => if k < 8 then 255 else 2 * (k - 8) + 1

/-- Go `var revCompTable = [...]byte{0, 8, 4, 12, 2, 10, 6, 14, 1, 9, 5, 13,
3, 11, 7, 15}`: the general 4-bit reverse-complement table. -/
def revCompTable : List Nat := [0, 8, 4, 12, 2, 10, 6, 14, 1, 9, 5, 13, 3, 11, 7, 15]

/-- Table indexing `revCompTable[x]` (defined for x < 16). -/
def rcTab (x : Nat) : Nat := revCompTable.getD x 0

/-- DATA ReverseComp4Lookup: the same 16 bytes
00 08 04 0c 02 0a 06 0e 01 09 05 0d 03 0b 07 0f as `revCompTable`,
as a PSHUFB lookup vector. -/
def ReverseComp4Lookup : Vec := fun k => rcTab k

/-- Go package constant: `bytesPerVec = 16` (set once in init()). -/
def bytesPerVec : Nat := 16

/-! ### unpackSeqOddSSE2Asm

Loop skeleton shared with unpackAndReplaceSeqOddSSSE3Asm: both assembly
routines read a 16-byte source vector per iteration, turn it into two
16-byte destination vectors via a per-vector body, store them at `2*di`,
advance `DI` by 16 and `R8` by 32 while `CX > DI`, and finish with one
usually-overlapping tail step at 16 bytes before the end of src.  Only the
body differs, so it is a parameter `f`. -/

/-- Body of the unpackSeqSSE2 loops: isolate high and low nibbles of the
source vector, then stitch them with PUNPCKLBW/PUNPCKHBW (even destination
bytes take high nibbles, odd take low nibbles). -/
def unpackBody (x1 : Vec) : Vec × Vec :=
  let x2 := pand0f x1
  let x1h := pand0f (psrlq4 x1)
  (punpcklbw x1h x2, punpckhbw x1h x2)

/-- Body of the unpackAndReplaceSeqSSSE3 loops: isolate the nibbles, replace
each through the 16-entry lookup table with PSHUFB, then stitch. -/
def unpackAndReplaceBody (t : Vec) (x3 : Vec) : Vec × Vec :=
  let x2 := pand0f x3
  let x3h := pand0f (psrlq4 x3)
  let x4 := pshufb t x2
  let x5 := pshufb t x3h
  (punpcklbw x5 x4, punpckhbw x5 x4)

/-- One step's destination store of the unpack loops: two consecutive
16-byte vector stores at offsets `a` and `a+16`. -/
def write2 (dst : Mem) (a : Nat) (p : Vec × Vec) : Mem :=
  writeVec (writeVec dst a p.1) (a + 16) p.2

/-- The do-while loop of unpackSeqOddSSE2Asm / unpackAndReplaceSeqOddSSSE3Asm:
run the body at src offset `di`, store the two result vectors at dst offsets
`r8` and `r8+16`, and continue while `cx > di + 16` (the assembly compares
the pointers after ADDQ $16, DI / ADDQ $32, R8; the body is pure, so the
do-while is rendered with the continuation test up front and the store
duplicated into both branches). -/
def nibbleOddLoop (f : Vec → Vec × Vec) (src : Mem) (cx di r8 : Nat) (dst : Mem) : Mem :=
  if _h : cx > di + 16 then
    nibbleOddLoop f src cx (di + 16) (r8 + 32) (write2 dst r8 (f (readVec src di)))
  else write2 dst r8 (f (readVec src di))
termination_by cx - di
decreasing_by omega

/-- unpackSeqOddSSE2Asm(dst, src, nSrcFullByte): bulk loop from offset 0,
then a final usually-unaligned step reading the last 16 source bytes
(offset CX = nSrcFullByte-16) and writing the last 32 destination bytes
(offset AX = 2*(nSrcFullByte-16)).  Only called with nSrcFullByte ≥ 16. -/
def unpackSeqOddSSE2Asm (dst src : Mem) (nSrcFullByte : Nat) : Mem :=
  write2 (nibbleOddLoop unpackBody src (nSrcFullByte - 16) 0 0 dst)
    (2 * (nSrcFullByte - 16)) (unpackBody (readVec src (nSrcFullByte - 16)))

/-- unpackAndReplaceSeqOddSSSE3Asm(dst, src, tablePtr, nSrcFullByte):
identical skeleton to unpackSeqOddSSE2Asm with the table-lookup body. -/
def unpackAndReplaceSeqOddSSSE3Asm (dst src : Mem) (t : Vec) (nSrcFullByte : Nat) : Mem :=
  write2 (nibbleOddLoop (unpackAndReplaceBody t) src (nSrcFullByte - 16) 0 0 dst)
    (2 * (nSrcFullByte - 16)) (unpackAndReplaceBody t (readVec src (nSrcFullByte - 16)))

/-! ### packSeqOddSSSE3Asm -/

/-- Body of the packSeq loops applied to two consecutive source vectors:
`POR(PSLLQ $12 x, x)` puts the packed pair (src[2q] << 4) | src[2q+1] in each
odd byte position (for source bytes < 16), and the two PSHUFB gathers plus
POR collect those odd bytes of both vectors into one destination vector. -/
def packBody (a b : Vec) : Vec :=
  por (pshufb (por (psllq12 a) a) GatherOddLow)
      (pshufb (por (psllq12 b) b) GatherOddHigh)

/-- The do-while loop of packSeqOddSSSE3Asm: pack 32 source bytes at offset
`di` into 16 destination bytes at offset `r8`, continue while `ax > di + 32`
(pointer compare after ADDQ $32, DI / ADDQ $16, R8). -/
def packOddLoop (src : Mem) (ax di r8 : Nat) (dst : Mem) : Mem :=
  if _h : ax > di + 32 then
    packOddLoop src ax (di + 32) (r8 + 16)
      (writeVec dst r8 (packBody (readVec src di) (readVec src (di + 16))))
  else writeVec dst r8 (packBody (readVec src di) (readVec src (di + 16)))
termination_by ax - di
decreasing_by omega

/-- packSeqOddSSSE3Asm(dst, src, nDstFullByte): bulk loop from offset 0, then
a final usually-unaligned step reading the last 32 source bytes (offset
AX = 2*(nDstFullByte-16)) and writing the last 16 destination bytes (offset
CX = nDstFullByte-16).  Only called with nDstFullByte ≥ 16. -/
def packSeqOddSSSE3Asm (dst src : Mem) (nDstFullByte : Nat) : Mem :=
  writeVec (packOddLoop src (2 * (nDstFullByte - 16)) 0 0 dst) (nDstFullByte - 16)
    (packBody (readVec src (2 * (nDstFullByte - 16)))
      (readVec src (2 * (nDstFullByte - 16) + 16)))

/-! ### reverseComp4SSSE3Asm (copy variant, nByte ≥ 16) -/

/-- One transformed window: byte-reverse a loaded vector with PSHUFB/Reverse8,
then look every byte up in ReverseComp4Lookup with a second PSHUFB. -/
def revCompVec (v : Vec) : Vec :=
  pshufb ReverseComp4Lookup (pshufb v Reverse8)

/-- The loop of reverseComp4SSSE3Asm: SI walks backwards from the end of src,
DI forwards from the start of dst; each step stores the reversed-and-looked-up
src window at dst offset `di`; continue while `cx > di + 16` (pointer compare
after SUBQ $16, SI / ADDQ $16, DI). -/
def revComp4Loop (src : Mem) (cx si di : Nat) (dst : Mem) : Mem :=
  if _h : cx > di + 16 then
    revComp4Loop src cx (si - 16) (di + 16) (writeVec dst di (revCompVec (readVec src si)))
  else writeVec dst di (revCompVec (readVec src si))
termination_by cx - di
decreasing_by omega

/-- reverseComp4SSSE3Asm(dst, src, nByte): bulk loop, then a final step
reading the first 16 source bytes and writing the last 16 destination bytes
(offset CX = nByte-16).  Only called with nByte ≥ 16. -/
def reverseComp4SSSE3Asm (dst src : Mem) (nByte : Nat) : Mem :=
  writeVec (revComp4Loop src (nByte - 16) (nByte - 16) 0 dst) (nByte - 16)
    (revCompVec (readVec src 0))

/-! ### reverseComp4InplaceSSSE3Asm (nByte > 16) -/

/-- The mirrored-swap loop of reverseComp4InplaceSSSE3Asm: load the windows
at both cursors, transform both, store each at the other cursor ((SI) is
stored first, then (DI)), advance SI by 16 and DI back by 16, and continue
while `ax ≥ si + 16` (CMPQ AX, SI; JGE after the increments).  Returns the
final memory together with the final SI and DI register values, which the
three-vector closing step uses when it runs. -/
def revComp4InplaceLoop (ax si di : Nat) (m : Mem) : Mem × Nat × Nat :=
  if _h : ax ≥ si + 16 then
    revComp4InplaceLoop ax (si + 16) (di - 16)
      (writeVec (writeVec m si (revCompVec (readVec m di))) di (revCompVec (readVec m si)))
  else
    (writeVec (writeVec m si (revCompVec (readVec m di))) di (revCompVec (readVec m si)),
      si + 16, di - 16)
termination_by ax + 16 - si
decreasing_by omega

/-- The three-vector closing step of reverseComp4InplaceSSSE3Asm: transform
the windows at SI, SI+16 and DI, then store them at DI, DI-16 and SI
respectively (store order: (SI), then -16(DI), then (DI)). -/
def revComp4LastThree (m : Mem) (si di : Nat) : Mem :=
  let w1 := revCompVec (readVec m di)
  let w6 := revCompVec (readVec m (si + 16))
  let w5 := revCompVec (readVec m si)
  writeVec (writeVec (writeVec m si w1) (di - 16) w6) di w5

/-- reverseComp4InplaceSSSE3Asm(seq8, nByte), only called with nByte > 16.
AX := (nByte-1) >> 1; BX := AX & 8 distinguishes the two cases of the header
comment; CX := AX + 2*BX; the initial `CMPQ AX, SI; JL` with
AX = &seq8[CX-24] jumps straight to the closing step when CX < 24; otherwise
the mirrored loop runs (termination bound CX-24) and the closing step runs
afterwards exactly when BX = 0. -/
def reverseComp4InplaceSSSE3Asm (seq8 : Mem) (nByte : Nat) : Mem :=
  let di := nByte - 16
  let a := (nByte - 1) / 2
  let bx := Nat.land a 8
  let cx := a + 2 * bx
  if cx < 24 then revComp4LastThree seq8 0 di
  else
    let r := revComp4InplaceLoop (cx - 24) 0 di seq8
    if bx ≠ 0 then r.1 else revComp4LastThree r.1 r.2.1 r.2.2

/-! ### reverseComp2TinySSSE3Asm (2-bit alphabet, nByte ≤ 16) -/

/-- reverseComp2TinySSSE3Asm(dst, src, nByte): build the PSHUFB index vector
{nByte-1, nByte-2, ...} (bytes ≥ n give indices with the high bit set, hence
zeros), reverse the first nByte source bytes with it, complement every byte
by XOR with Mask0303, and store one full vector at dst.  The broadcast is
MOVD nByte, X2 followed by PSHUFB of a zeroed register, i.e. every byte
becomes nByte % 256. -/
def reverseComp2TinySSSE3Asm (dst src : Mem) (nByte : Nat) : Mem :=
  let x2 := paddb Reverse8Minus16 (fun _ => nByte % 256)
  let x3 := pshufb (readVec src 0) x2
  writeVec dst 0 (pxorv x3 Mask0303)

/-! ### Safe Go entry points (package biosimd)

A Go slice argument becomes a memory plus an explicit length; `panic`
becomes `Except.error` with the panic message (the length check is the first
statement of each function, before any write). -/

/-- The scalar loop of UnpackSeq (`for srcPos := 0; srcPos < nSrcFullByte`):
dst[2*srcPos] = src[srcPos] >> 4, dst[2*srcPos+1] = src[srcPos] & 15.
The recursion performs iteration `k` after iterations 0..k-1, matching the
ascending Go loop. -/
def unpackScalarLoop (dst src : Mem) : Nat → Mem
  | 0 => dst
  | k + 1 =>
    writeB (writeB (unpackScalarLoop dst src k) (2 * k) (src k / 16))
      (2 * k + 1) (src k % 16)

/-- UnpackSeq(dst, src). -/
def UnpackSeq (dst : Mem) (dstLen : Nat) (src : Mem) (srcLen : Nat) : Except String Mem :=
  let nSrcFullByte := dstLen / 2
  let srcOdd := dstLen % 2
  if srcLen ≠ nSrcFullByte + srcOdd then
    .error "UnpackSeq() requires len(src) == (len(dst) + 1) / 2."
  else
    let dst1 :=
      if nSrcFullByte < bytesPerVec then unpackScalarLoop dst src nSrcFullByte
      else unpackSeqOddSSE2Asm dst src nSrcFullByte
    .ok (if srcOdd = 1 then writeB dst1 (2 * nSrcFullByte) (src nSrcFullByte / 16) else dst1)

/-- The scalar loop of PackSeq: dst[q] = (src[2q] << 4) | src[2q+1]
(byte shift, so the shifted value is truncated modulo 256). -/
def packScalarLoop (dst src : Mem) : Nat → Mem
  | 0 => dst
  | k + 1 =>
    writeB (packScalarLoop dst src k) k (Nat.lor (src (2 * k) * 16 % 256) (src (2 * k + 1)))

/-- PackSeq(dst, src). -/
def PackSeq (dst : Mem) (dstLen : Nat) (src : Mem) (srcLen : Nat) : Except String Mem :=
  let nDstFullByte := srcLen / 2
  let dstOdd := srcLen % 2
  if dstLen ≠ nDstFullByte + dstOdd then
    .error "PackSeq() requires len(dst) == (len(src) + 1) / 2."
  else
    let dst1 :=
      if nDstFullByte < bytesPerVec then packScalarLoop dst src nDstFullByte
      else packSeqOddSSSE3Asm dst src nDstFullByte
    .ok (if dstOdd = 1 then writeB dst1 nDstFullByte (src (nDstFullByte * 2) * 16 % 256) else dst1)

/-- The scalar loop of ReverseComp (`for idx, invIdx := 0, nByte-1;
idx != nByte`): dst[idx] = revCompTable[src[invIdx]].  The recursion performs
iteration `k` (idx = k, invIdx = nByte-1-k) after iterations 0..k-1. -/
def revCompScalarLoop (dst src : Mem) (nByte : Nat) : Nat → Mem
  | 0 => dst
  | k + 1 => writeB (revCompScalarLoop dst src nByte k) k (rcTab (src (nByte - 1 - k)))

/-- ReverseComp(dst, src).  (The Go file's forward declaration calls the
bulk routine reverseCompSSSE3Asm; the assembly file implements it as
reverseComp4SSSE3Asm.) -/
def ReverseComp (dst : Mem) (dstLen : Nat) (src : Mem) (srcLen : Nat) : Except String Mem :=
  let nByte := srcLen
  if dstLen ≠ srcLen then
    .error "ReverseComp() requires len(dst) == len(src)."
  else if nByte < bytesPerVec then .ok (revCompScalarLoop dst src nByte nByte)
  else .ok (reverseComp4SSSE3Asm dst src nByte)

/-- The scalar swap loop of ReverseCompInplace (`for idx, invIdx := 0,
nByte-1; idx != nByteDiv2`): the parallel assignment
`seq8[idx], seq8[invIdx] = revCompTable[seq8[invIdx]], revCompTable[seq8[idx]]`
reads both old bytes before writing.  Since idx counts up by 1 from 0, the
Go condition `idx != nByteDiv2` first fails exactly when idx reaches stop. -/
def revCompInplaceScalarLoop (m : Mem) (idx invIdx stop : Nat) : Mem :=
  if _h : stop ≤ idx then m
  else
    revCompInplaceScalarLoop
      (writeB (writeB m idx (rcTab (m invIdx))) invIdx (rcTab (m idx)))
      (idx + 1) (invIdx - 1) stop
termination_by stop - idx
decreasing_by omega

/-- ReverseCompInplace(seq8). -/
def ReverseCompInplace (seq8 : Mem) (nByte : Nat) : Mem :=
  if nByte ≤ bytesPerVec then
    let nByteDiv2 := nByte / 2
    let m1 := revCompInplaceScalarLoop seq8 0 (nByte - 1) nByteDiv2
    if nByte % 2 = 1 then writeB m1 nByteDiv2 (rcTab (m1 nByteDiv2)) else m1
  else reverseComp4InplaceSSSE3Asm seq8 nByte

/-- The scalar loop of UnpackAndReplaceSeq:
dst[2*srcPos] = tablePtr[src[srcPos] >> 4],
dst[2*srcPos+1] = tablePtr[src[srcPos] & 15]. -/
def unpackAndReplaceScalarLoop (dst src : Mem) (t : Vec) : Nat → Mem
  | 0 => dst
  | k + 1 =>
    writeB (writeB (unpackAndReplaceScalarLoop dst src t k) (2 * k) (t (src k / 16)))
      (2 * k + 1) (t (src k % 16))

/-- UnpackAndReplaceSeq(dst, src, tablePtr); the 16-entry table is a `Vec`. -/
def UnpackAndReplaceSeq (dst : Mem) (dstLen : Nat) (src : Mem) (srcLen : Nat)
    (t : Vec) : Except String Mem :=
  let nSrcFullByte := dstLen / 2
  let srcOdd := dstLen % 2
  if srcLen ≠ nSrcFullByte + srcOdd then
    .error "UnpackAndReplaceSeq() requires len(src) == (len(dst) + 1) / 2."
  else
    let dst1 :=
      if nSrcFullByte < bytesPerVec then unpackAndReplaceScalarLoop dst src t nSrcFullByte
      else unpackAndReplaceSeqOddSSSE3Asm dst src t nSrcFullByte
    .ok (if srcOdd = 1 then writeB dst1 (2 * nSrcFullByte) (t (src nSrcFullByte / 16)) else dst1)

/-! ### Specification values (from the Go doc comments) -/

/-- The value UnpackSeq promises at destination position `p`:
`src[p/2] >> 4` when `p` is even, `src[p/2] & 15` when `p` is odd. -/
def unpackAt (src : Mem) (p : Nat) : Nat :=
  if p % 2 = 0 then src (p / 2) / 16 else src (p / 2) % 16

/-- The value UnpackAndReplaceSeq promises at destination position `p`:
`table[src[p/2] >> 4]` when even, `table[src[p/2] & 15]` when odd. -/
def unpackRepAt (t : Vec) (src : Mem) (p : Nat) : Nat :=
  if p % 2 = 0 then t (src (p / 2) / 16) else t (src (p / 2) % 16)

/-- The value PackSeq promises at destination byte `q` (for source codes
< 16): high nibble src[2q], low nibble src[2q+1], the low nibble being zero
for the odd trailing byte. -/
def packAt (src : Mem) (srcLen q : Nat) : Nat :=
  16 * src (2 * q) + (if 2 * q + 1 < srcLen then src (2 * q + 1) else 0)

/-- The value the reverse-complement transforms promise at position `j` of
an `n`-byte buffer whose original contents were `m0`. -/
def rcFinal (m0 : Mem) (n j : Nat) : Nat := rcTab (m0 (n - 1 - j))

/-- The last `di` value for which the body of a 16-byte-stride do-while loop
with continuation condition `cx > di + 16` runs. -/
def lastDi (cx di : Nat) : Nat :=
  if _h : cx > di + 16 then lastDi cx (di + 16) else di
termination_by cx - di
decreasing_by omega

/-- The last `di` value for which the body of the 32-byte-stride pack loop
with continuation condition `ax > di + 32` runs. -/
def packLast (ax di : Nat) : Nat :=
  if _h : ax > di + 32 then packLast ax (di + 32) else di
termination_by ax - di
decreasing_by omega

/-! ## Theorems -/

/-! ### Memory and write lemmas -/

theorem writeB_apply (m : Mem) (i v j : Nat) :
    writeB m i v j = if j = i then v else m j := rfl

theorem writeVec_apply (m : Mem) (a : Nat) (v : Vec) (j : Nat) :
    writeVec m a v j = if a ≤ j ∧ j < a + 16 then v (j - a) else m j := rfl

theorem readVec_apply (m : Mem) (a k : Nat) : readVec m a k = m (a + k) := rfl

theorem write1_spec (dst : Mem) (a : Nat) (v : Vec) (spec : Nat → Nat)
    (h1 : ∀ k, k < 16 → v k = spec (a + k)) (j : Nat) :
    writeVec dst a v j = if a ≤ j ∧ j < a + 16 then spec j else dst j := by
  rw [writeVec_apply]
  by_cases hB : a ≤ j ∧ j < a + 16
  · rw [if_pos hB, if_pos hB, h1 (j - a) (by omega)]
    congr 1
    omega
  · rw [if_neg hB, if_neg hB]

theorem write2_spec (dst : Mem) (a : Nat) (p : Vec × Vec) (spec : Nat → Nat)
    (h1 : ∀ k, k < 16 → p.1 k = spec (a + k))
    (h2 : ∀ k, k < 16 → p.2 k = spec (a + 16 + k)) (j : Nat) :
    write2 dst a p j = if a ≤ j ∧ j < a + 32 then spec j else dst j := by
  unfold write2
  rw [writeVec_apply, writeVec_apply]
  by_cases hA : a + 16 ≤ j ∧ j < a + 16 + 16
  · rw [if_pos hA, if_pos (by omega), h2 (j - (a + 16)) (by omega)]
    congr 1
    omega
  · rw [if_neg hA]
    by_cases hB : a ≤ j ∧ j < a + 16
    · rw [if_pos hB, if_pos (by omega), h1 (j - a) (by omega)]
      congr 1
      omega
    · rw [if_neg hB, if_neg (by omega)]

/-! ### lastDi / packLast bookkeeping -/

theorem lastDi_ge (cx di : Nat) : di ≤ lastDi cx di := by
  unfold lastDi
  split
  · exact le_trans (by omega) (lastDi_ge cx (di + 16))
  · exact Nat.le_refl di
termination_by cx - di
decreasing_by omega

theorem lastDi_le (cx di : Nat) (h : di ≤ cx) : lastDi cx di ≤ cx := by
  unfold lastDi
  split
  · exact lastDi_le cx (di + 16) (by omega)
  · exact h
termination_by cx - di
decreasing_by omega

theorem lastDi_lb (cx di : Nat) : cx ≤ lastDi cx di + 16 := by
  unfold lastDi
  split
  · exact lastDi_lb cx (di + 16)
  · omega
termination_by cx - di
decreasing_by omega

theorem lastDi_step (cx di : Nat) (h : cx > di + 16) :
    lastDi cx di = lastDi cx (di + 16) := by
  conv_lhs => unfold lastDi
  rw [dif_pos h]

theorem lastDi_stop (cx di : Nat) (h : ¬cx > di + 16) : lastDi cx di = di := by
  unfold lastDi
  rw [dif_neg h]

theorem packLast_ge (ax di : Nat) : di ≤ packLast ax di := by
  unfold packLast
  split
  · exact le_trans (by omega) (packLast_ge ax (di + 32))
  · exact Nat.le_refl di
termination_by ax - di
decreasing_by omega

theorem packLast_le (ax di : Nat) (h : di ≤ ax) : packLast ax di ≤ ax := by
  unfold packLast
  split
  · exact packLast_le ax (di + 32) (by omega)
  · exact h
termination_by ax - di
decreasing_by omega

theorem packLast_lb (ax di : Nat) : ax ≤ packLast ax di + 32 := by
  unfold packLast
  split
  · exact packLast_lb ax (di + 32)
  · omega
termination_by ax - di
decreasing_by omega

theorem packLast_step (ax di : Nat) (h : ax > di + 32) :
    packLast ax di = packLast ax (di + 32) := by
  conv_lhs => unfold packLast
  rw [dif_pos h]

theorem packLast_stop (ax di : Nat) (h : ¬ax > di + 32) : packLast ax di = di := by
  unfold packLast
  rw [dif_neg h]

/-! ### The unpack nibble loops -/

theorem unpackAt_even (src : Mem) (q : Nat) : unpackAt src (2 * q) = src q / 16 := by
  unfold unpackAt
  rw [if_pos (by omega), show 2 * q / 2 = q by omega]

theorem unpackAt_odd (src : Mem) (q : Nat) : unpackAt src (2 * q + 1) = src q % 16 := by
  unfold unpackAt
  rw [if_neg (by omega), show (2 * q + 1) / 2 = q by omega]

theorem pand0f_psrlq4 (src : Mem) (d : Nat) (hs : ∀ i, i < d + 16 → src i < 256) :
    ∀ k, k < 16 → pand0f (psrlq4 (readVec src d)) k = src (d + k) / 16 := by
  intro k hk
  have hb : src (d + k) < 256 := hs _ (by omega)
  unfold pand0f psrlq4 readVec
  by_cases h7 : k % 8 = 7
  · rw [if_pos h7]
    omega
  · rw [if_neg h7]
    omega

theorem unpackBody_spec (src : Mem) (d : Nat) (hs : ∀ i, i < d + 16 → src i < 256) :
    ∀ k, k < 16 →
      (unpackBody (readVec src d)).1 k = unpackAt src (2 * d + k) ∧
      (unpackBody (readVec src d)).2 k = unpackAt src (2 * d + 16 + k) := by
  intro k hk
  have hhi := pand0f_psrlq4 src d hs
  unfold unpackBody punpcklbw punpckhbw
  dsimp only
  constructor
  · by_cases he : k % 2 = 0
    · rw [if_pos he, hhi (k / 2) (by omega),
        show 2 * d + k = 2 * (d + k / 2) by omega, unpackAt_even]
    · rw [if_neg he, show pand0f (readVec src d) (k / 2) = src (d + k / 2) % 16 from rfl,
        show 2 * d + k = 2 * (d + k / 2) + 1 by omega, unpackAt_odd]
  · by_cases he : k % 2 = 0
    · rw [if_pos he, hhi (k / 2 + 8) (by omega),
        show 2 * d + 16 + k = 2 * (d + (k / 2 + 8)) by omega, unpackAt_even]
    · rw [if_neg he,
        show pand0f (readVec src d) (k / 2 + 8) = src (d + (k / 2 + 8)) % 16 from rfl,
        show 2 * d + 16 + k = 2 * (d + (k / 2 + 8)) + 1 by omega, unpackAt_odd]

theorem nibbleOddLoop_spec (f : Vec → Vec × Vec) (src : Mem) (cx : Nat) (spec : Nat → Nat)
    (Hf : ∀ d, d ≤ cx → ∀ k, k < 16 →
      (f (readVec src d)).1 k = spec (2 * d + k) ∧
      (f (readVec src d)).2 k = spec (2 * d + 16 + k))
    (di : Nat) (dst : Mem) (j : Nat) (hdi : di ≤ cx) :
    nibbleOddLoop f src cx di (2 * di) dst j =
      if 2 * di ≤ j ∧ j < 2 * lastDi cx di + 32 then spec j else dst j := by
  have hw : ∀ dst1 j1, write2 dst1 (2 * di) (f (readVec src di)) j1 =
      if 2 * di ≤ j1 ∧ j1 < 2 * di + 32 then spec j1 else dst1 j1 := fun dst1 j1 =>
    write2_spec dst1 (2 * di) _ spec (fun k hk => (Hf di hdi k hk).1)
      (fun k hk => (Hf di hdi k hk).2) j1
  unfold nibbleOddLoop
  by_cases h : cx > di + 16
  · rw [dif_pos h]
    rw [show 2 * di + 32 = 2 * (di + 16) by ring]
    rw [nibbleOddLoop_spec f src cx spec Hf (di + 16) _ j (by omega)]
    rw [lastDi_step cx di h]
    have hge : di + 16 ≤ lastDi cx (di + 16) := lastDi_ge cx (di + 16)
    by_cases hj : 2 * (di + 16) ≤ j ∧ j < 2 * lastDi cx (di + 16) + 32
    · rw [if_pos hj, if_pos (by omega)]
    · rw [if_neg hj, hw]
      by_cases hj2 : 2 * di ≤ j ∧ j < 2 * di + 32
      · rw [if_pos hj2, if_pos (by omega)]
      · rw [if_neg hj2, if_neg (by omega)]
  · rw [dif_neg h]
    rw [hw, lastDi_stop cx di h]
termination_by cx - di
decreasing_by omega

theorem nibbleOddAsm_spec (f : Vec → Vec × Vec) (src : Mem) (n : Nat) (spec : Nat → Nat)
    (h16 : 16 ≤ n)
    (Hf : ∀ d, d ≤ n - 16 → ∀ k, k < 16 →
      (f (readVec src d)).1 k = spec (2 * d + k) ∧
      (f (readVec src d)).2 k = spec (2 * d + 16 + k))
    (dst : Mem) (j : Nat) :
    write2 (nibbleOddLoop f src (n - 16) 0 0 dst) (2 * (n - 16)) (f (readVec src (n - 16))) j =
      if j < 2 * n then spec j else dst j := by
  rw [write2_spec _ _ _ spec (fun k hk => (Hf (n - 16) (by omega) k hk).1)
    (fun k hk => (Hf (n - 16) (by omega) k hk).2) j]
  rw [show (nibbleOddLoop f src (n - 16) 0 0 dst)
      = (nibbleOddLoop f src (n - 16) 0 (2 * 0) dst) from rfl]
  rw [nibbleOddLoop_spec f src (n - 16) spec Hf 0 dst j (by omega)]
  have g1 := lastDi_ge (n - 16) 0
  have g2 := lastDi_le (n - 16) 0 (by omega)
  have g3 := lastDi_lb (n - 16) 0
  split_ifs <;> first | rfl | (exfalso; omega)

theorem unpackSeqOddSSE2Asm_spec (dst src : Mem) (n : Nat) (h16 : 16 ≤ n)
    (hs : ∀ i, i < n → src i < 256) (j : Nat) :
    unpackSeqOddSSE2Asm dst src n j = if j < 2 * n then unpackAt src j else dst j := by
  unfold unpackSeqOddSSE2Asm
  exact nibbleOddAsm_spec unpackBody src n (unpackAt src) h16
    (fun d hd => unpackBody_spec src d (fun i hi => hs i (by omega))) dst j

theorem unpackScalarLoop_spec (dst src : Mem) (n j : Nat) :
    unpackScalarLoop dst src n j = if j < 2 * n then unpackAt src j else dst j := by
  induction n with
  | zero => rw [if_neg (by omega)]; rfl
  | succ k ih =>
    unfold unpackScalarLoop
    rw [writeB_apply, writeB_apply]
    by_cases h1 : j = 2 * k + 1
    · rw [if_pos h1, if_pos (by omega), h1, unpackAt_odd]
    · rw [if_neg h1]
      by_cases h2 : j = 2 * k
      · rw [if_pos h2, if_pos (by omega), h2, unpackAt_even]
      · rw [if_neg h2, ih]
        by_cases h3 : j < 2 * k
        · rw [if_pos h3, if_pos (by omega)]
        · rw [if_neg h3, if_neg (by omega)]

theorem UnpackSeq_ok (dst src : Mem) (dstLen srcLen : Nat)
    (hlen : srcLen = dstLen / 2 + dstLen % 2) (hs : ∀ i, i < srcLen → src i < 256) :
    UnpackSeq dst dstLen src srcLen =
      Except.ok (fun j => if j < dstLen then unpackAt src j else dst j) := by
  unfold UnpackSeq
  rw [if_neg (show ¬srcLen ≠ dstLen / 2 + dstLen % 2 by omega)]
  refine congrArg Except.ok (funext fun j => ?_)
  have hX : ∀ j1, (if dstLen / 2 < bytesPerVec then unpackScalarLoop dst src (dstLen / 2)
      else unpackSeqOddSSE2Asm dst src (dstLen / 2)) j1 =
      if j1 < 2 * (dstLen / 2) then unpackAt src j1 else dst j1 := by
    intro j1
    by_cases hsc : dstLen / 2 < bytesPerVec
    · rw [if_pos hsc, unpackScalarLoop_spec]
    · rw [if_neg hsc]
      exact unpackSeqOddSSE2Asm_spec dst src (dstLen / 2)
        (by unfold bytesPerVec at hsc; omega) (fun i hi => hs i (by omega)) j1
  by_cases hodd : dstLen % 2 = 1
  · rw [if_pos hodd, writeB_apply]
    by_cases hj : j = 2 * (dstLen / 2)
    · rw [if_pos hj, if_pos (by omega), hj, unpackAt_even]
    · rw [if_neg hj, hX]
      by_cases h3 : j < 2 * (dstLen / 2)
      · rw [if_pos h3, if_pos (by omega)]
      · rw [if_neg h3, if_neg (by omega)]
  · rw [if_neg hodd, hX]
    by_cases h3 : j < 2 * (dstLen / 2)
    · rw [if_pos h3, if_pos (by omega)]
    · rw [if_neg h3, if_neg (by omega)]

/-- Claim C1: for every dst and src with len(src) equal to (len(dst)+1)/2,
after UnpackSeq(dst, src) returns, each destination position p holds
src[p/2] >> 4 when p is even and src[p/2] & 0xF when p is odd. -/
theorem claim_C1_unpackSeq (dst src : Mem) (dstLen srcLen : Nat)
    (hlen : srcLen = (dstLen + 1) / 2) (hs : ∀ i, i < srcLen → src i < 256) :
    ∃ dst1, UnpackSeq dst dstLen src srcLen = Except.ok dst1 ∧
      ∀ p, p < dstLen →
        dst1 p = if p % 2 = 0 then src (p / 2) / 16 else src (p / 2) % 16 := by
  refine ⟨_, UnpackSeq_ok dst src dstLen srcLen (by omega) hs, fun p hp => ?_⟩
  rw [if_pos hp]
  rfl

/-- Witness for C1: unpacking the single byte 0x12 into a 2-byte destination
yields [1, 2]. -/
theorem claim_C1_witness :
    ∃ dst1, UnpackSeq (mkMem []) 2 (mkMem [18]) 1 = Except.ok dst1 ∧
      dst1 0 = 1 ∧ dst1 1 = 2 := by
  obtain ⟨d, hd, hp⟩ := claim_C1_unpackSeq (mkMem []) (mkMem [18]) 2 1 (by decide)
    (by decide)
  exact ⟨d, hd, (hp 0 (by omega)).trans (by decide), (hp 1 (by omega)).trans (by decide)⟩

/-! ### The pack loops -/

theorem lor_nibble : ∀ a, a < 16 → ∀ b, b < 16 → Nat.lor (a * 16) b = 16 * a + b := by
  decide

theorem lor_zero_nat (a : Nat) : Nat.lor a 0 = a := Nat.or_zero a

theorem zero_lor_nat (a : Nat) : Nat.lor 0 a = a := Nat.zero_or a

theorem packAt_pair (src : Mem) (srcLen q : Nat) (h : 2 * q + 1 < srcLen) :
    packAt src srcLen q = 16 * src (2 * q) + src (2 * q + 1) := by
  unfold packAt
  rw [if_pos h]

theorem packAt_tail (src : Mem) (srcLen q : Nat) (h : ¬2 * q + 1 < srcLen) :
    packAt src srcLen q = 16 * src (2 * q) := by
  unfold packAt
  rw [if_neg h]
  omega

theorem packPair (a : Vec) (ha : ∀ i, i < 16 → a i < 16) (k : Nat) (hk : k < 16)
    (hodd : k % 2 = 1) : por (psllq12 a) a k = 16 * a (k - 1) + a k := by
  have h1 : a (k - 1) < 16 := ha _ (by omega)
  have h2 : a k < 16 := ha _ (by omega)
  unfold por psllq12
  by_cases hk1 : k % 8 = 1
  · rw [if_neg (by omega), if_pos hk1, Nat.mod_eq_of_lt h1]
    exact lor_nibble _ h1 _ h2
  · rw [if_neg (by omega), if_neg hk1, Nat.div_eq_of_lt (ha _ (by omega)),
      Nat.mod_eq_of_lt h1, Nat.zero_add]
    exact lor_nibble _ h1 _ h2

theorem packBody_spec (src : Mem) (srcLen q0 : Nat) (hs : ∀ i, i < srcLen → src i < 16)
    (hlen : 2 * q0 + 32 ≤ srcLen) : ∀ k, k < 16 →
    packBody (readVec src (2 * q0)) (readVec src (2 * q0 + 16)) k = packAt src srcLen (q0 + k) := by
  intro k hk
  have ha : ∀ i, i < 16 → readVec src (2 * q0) i < 16 := fun i hi => hs _ (by omega)
  have hb : ∀ i, i < 16 → readVec src (2 * q0 + 16) i < 16 := fun i hi => hs _ (by omega)
  have hpor : ∀ (v w : Vec) (j : Nat), por v w j = Nat.lor (v j) (w j) := fun _ _ _ => rfl
  have hps : ∀ (x idx : Vec) (j : Nat),
      pshufb x idx j = if idx j % 256 ≥ 128 then 0 else x (idx j % 16) := fun _ _ _ => rfl
  unfold packBody
  rw [hpor, hps, hps]
  by_cases hk8 : k < 8
  · rw [show GatherOddLow k = 2 * k + 1 from by unfold GatherOddLow; rw [if_pos hk8],
      show GatherOddHigh k = 255 from by unfold GatherOddHigh; rw [if_pos hk8]]
    rw [if_neg (by omega), if_pos (by omega), lor_zero_nat,
      show (2 * k + 1) % 16 = 2 * k + 1 by omega,
      packPair _ ha (2 * k + 1) (by omega) (by omega)]
    rw [packAt_pair src srcLen (q0 + k) (by omega)]
    rw [show 2 * k + 1 - 1 = 2 * k by omega]
    rw [readVec_apply, readVec_apply,
      show 2 * q0 + 2 * k = 2 * (q0 + k) by ring,
      show 2 * q0 + (2 * k + 1) = 2 * (q0 + k) + 1 by ring]
  · rw [show GatherOddLow k = 255 from by unfold GatherOddLow; rw [if_neg hk8],
      show GatherOddHigh k = 2 * (k - 8) + 1 from by unfold GatherOddHigh; rw [if_neg hk8]]
    rw [if_pos (by omega), if_neg (by omega), zero_lor_nat,
      show (2 * (k - 8) + 1) % 16 = 2 * (k - 8) + 1 by omega,
      packPair _ hb (2 * (k - 8) + 1) (by omega) (by omega)]
    rw [packAt_pair src srcLen (q0 + k) (by omega)]
    rw [show 2 * (k - 8) + 1 - 1 = 2 * (k - 8) by omega]
    rw [readVec_apply, readVec_apply,
      show 2 * q0 + 16 + 2 * (k - 8) = 2 * (q0 + k) by omega,
      show 2 * q0 + 16 + (2 * (k - 8) + 1) = 2 * (q0 + k) + 1 by omega]

theorem packOddLoop_spec (src : Mem) (srcLen ax : Nat) (hax : ax + 32 ≤ srcLen)
    (hs : ∀ i, i < srcLen → src i < 16) (q0 : Nat) (dst : Mem) (j : Nat)
    (hq : 2 * q0 ≤ ax) :
    packOddLoop src ax (2 * q0) q0 dst j =
      if q0 ≤ j ∧ 2 * j < packLast ax (2 * q0) + 32 then packAt src srcLen j else dst j := by
  have hw : ∀ dst1 j1,
      writeVec dst1 q0 (packBody (readVec src (2 * q0)) (readVec src (2 * q0 + 16))) j1 =
      if q0 ≤ j1 ∧ j1 < q0 + 16 then packAt src srcLen j1 else dst1 j1 := fun dst1 j1 =>
    write1_spec dst1 q0 _ (packAt src srcLen)
      (packBody_spec src srcLen q0 hs (by omega)) j1
  unfold packOddLoop
  by_cases h : ax > 2 * q0 + 32
  · rw [dif_pos h]
    rw [show 2 * q0 + 32 = 2 * (q0 + 16) by ring]
    rw [packOddLoop_spec src srcLen ax hax hs (q0 + 16) _ j (by omega)]
    rw [packLast_step ax (2 * q0) (by omega), show 2 * q0 + 32 = 2 * (q0 + 16) by ring]
    have hge : 2 * (q0 + 16) ≤ packLast ax (2 * (q0 + 16)) := packLast_ge ax (2 * (q0 + 16))
    by_cases hj : q0 + 16 ≤ j ∧ 2 * j < packLast ax (2 * (q0 + 16)) + 32
    · rw [if_pos hj, if_pos (by omega)]
    · rw [if_neg hj, hw]
      by_cases hj2 : q0 ≤ j ∧ j < q0 + 16
      · rw [if_pos hj2, if_pos (by omega)]
      · rw [if_neg hj2, if_neg (by omega)]
  · rw [dif_neg h]
    rw [hw, packLast_stop ax (2 * q0) h]
    by_cases hj2 : q0 ≤ j ∧ j < q0 + 16
    · rw [if_pos hj2, if_pos (by omega)]
    · rw [if_neg hj2, if_neg (by omega)]
termination_by ax - 2 * q0
decreasing_by omega

theorem packSeqOddSSSE3Asm_spec (dst src : Mem) (srcLen n : Nat) (h16 : 16 ≤ n)
    (hlen : 2 * n ≤ srcLen) (hs : ∀ i, i < srcLen → src i < 16) (j : Nat) :
    packSeqOddSSSE3Asm dst src n j = if j < n then packAt src srcLen j else dst j := by
  unfold packSeqOddSSSE3Asm
  rw [write1_spec _ (n - 16) _ (packAt src srcLen)
    (fun k hk => packBody_spec src srcLen (n - 16) hs (by omega) k hk) j]
  rw [show (packOddLoop src (2 * (n - 16)) 0 0 dst)
      = (packOddLoop src (2 * (n - 16)) (2 * 0) 0 dst) from rfl]
  rw [packOddLoop_spec src srcLen (2 * (n - 16)) (by omega) hs 0 dst j (by omega)]
  have g1 := packLast_ge (2 * (n - 16)) (2 * 0)
  have g2 := packLast_le (2 * (n - 16)) (2 * 0) (by omega)
  have g3 := packLast_lb (2 * (n - 16)) (2 * 0)
  split_ifs <;> first | rfl | (exfalso; omega)

theorem packScalarLoop_spec (dst src : Mem) (srcLen : Nat)
    (hs : ∀ i, i < srcLen → src i < 16) (n : Nat) (hn : 2 * n ≤ srcLen) (j : Nat) :
    packScalarLoop dst src n j = if j < n then packAt src srcLen j else dst j := by
  induction n with
  | zero => rw [if_neg (by omega)]; rfl
  | succ k ih =>
    unfold packScalarLoop
    rw [writeB_apply]
    by_cases h1 : j = k
    · have hk0 : src (2 * k) < 16 := hs _ (by omega)
      rw [if_pos h1, if_pos (by omega), h1, Nat.mod_eq_of_lt (by omega),
        lor_nibble _ hk0 _ (hs _ (by omega)), packAt_pair src srcLen k (by omega)]
    · rw [if_neg h1, ih (by omega)]
      by_cases h3 : j < k
      · rw [if_pos h3, if_pos (by omega)]
      · rw [if_neg h3, if_neg (by omega)]

theorem PackSeq_ok (dst src : Mem) (dstLen srcLen : Nat)
    (hlen : dstLen = srcLen / 2 + srcLen % 2) (hs : ∀ i, i < srcLen → src i < 16) :
    PackSeq dst dstLen src srcLen =
      Except.ok (fun j => if j < dstLen then packAt src srcLen j else dst j) := by
  unfold PackSeq
  rw [if_neg (show ¬dstLen ≠ srcLen / 2 + srcLen % 2 by omega)]
  refine congrArg Except.ok (funext fun j => ?_)
  have hX : ∀ j1, (if srcLen / 2 < bytesPerVec then packScalarLoop dst src (srcLen / 2)
      else packSeqOddSSSE3Asm dst src (srcLen / 2)) j1 =
      if j1 < srcLen / 2 then packAt src srcLen j1 else dst j1 := by
    intro j1
    by_cases hsc : srcLen / 2 < bytesPerVec
    · rw [if_pos hsc, packScalarLoop_spec dst src srcLen hs (srcLen / 2) (by omega)]
    · rw [if_neg hsc]
      exact packSeqOddSSSE3Asm_spec dst src srcLen (srcLen / 2)
        (by unfold bytesPerVec at hsc; omega) (by omega) hs j1
  by_cases hodd : srcLen % 2 = 1
  · rw [if_pos hodd, writeB_apply]
    by_cases hj : j = srcLen / 2
    · have hlt : srcLen / 2 * 2 < srcLen := by omega
      rw [if_pos hj, if_pos (by omega), hj, Nat.mod_eq_of_lt (by have := hs _ hlt; omega),
        packAt_tail src srcLen (srcLen / 2) (by omega),
        show srcLen / 2 * 2 = 2 * (srcLen / 2) by ring]
      ring
    · rw [if_neg hj, hX]
      by_cases h3 : j < srcLen / 2
      · rw [if_pos h3, if_pos (by omega)]
      · rw [if_neg h3, if_neg (by omega)]
  · rw [if_neg hodd, hX]
    by_cases h3 : j < srcLen / 2
    · rw [if_pos h3, if_pos (by omega)]
    · rw [if_neg h3, if_neg (by omega)]

/-- Claim C2: for every dst and src with len(dst) equal to (len(src)+1)/2 and
all source codes below 16, PackSeq fills each full destination byte q with
(src[2q] << 4) | src[2q+1], and when len(src) is odd the final destination
byte is src[len(src)-1] << 4, so its low nibble is zero. -/
theorem claim_C2_packSeq (dst src : Mem) (dstLen srcLen : Nat)
    (hlen : dstLen = (srcLen + 1) / 2) (hs : ∀ i, i < srcLen → src i < 16) :
    ∃ dst1, PackSeq dst dstLen src srcLen = Except.ok dst1 ∧
      (∀ q, 2 * q + 1 < srcLen → dst1 q = 16 * src (2 * q) + src (2 * q + 1)) ∧
      (srcLen % 2 = 1 → dst1 (srcLen / 2) = 16 * src (srcLen - 1)) := by
  refine ⟨_, PackSeq_ok dst src dstLen srcLen (by omega) hs, fun q hq => ?_, fun hodd => ?_⟩
  · rw [if_pos (by omega), packAt_pair src srcLen q hq]
  · rw [if_pos (by omega), packAt_tail src srcLen (srcLen / 2) (by omega),
      show 2 * (srcLen / 2) = srcLen - 1 by omega]

/-- Witness for C2: packing [1, 2, 3] yields [0x12, 0x30]. -/
theorem claim_C2_witness :
    ∃ dst1, PackSeq (mkMem []) 2 (mkMem [1, 2, 3]) 3 = Except.ok dst1 ∧
      dst1 0 = 18 ∧ dst1 1 = 48 := by
  obtain ⟨d, hd, h1, h2⟩ := claim_C2_packSeq (mkMem []) (mkMem [1, 2, 3]) 2 3 (by decide)
    (by decide)
  exact ⟨d, hd, (h1 0 (by omega)).trans (by decide), (h2 (by decide)).trans (by decide)⟩

/-- Claim C3: packing a code sequence (all elements < 16) and unpacking the
result reproduces the sequence exactly, for even and odd lengths. -/
theorem claim_C3_roundTrip (s d1 d2 : Mem) (len : Nat) (hs : ∀ i, i < len → s i < 16) :
    ∃ packed unpacked,
      PackSeq d1 ((len + 1) / 2) s len = Except.ok packed ∧
      UnpackSeq d2 len packed ((len + 1) / 2) = Except.ok unpacked ∧
      ∀ i, i < len → unpacked i = s i := by
  have hb : ∀ i, i < (len + 1) / 2 →
      (fun j => if j < (len + 1) / 2 then packAt s len j else d1 j) i < 256 := by
    intro i hi
    have h2i : 2 * i < len := by omega
    have ht : (if 2 * i + 1 < len then s (2 * i + 1) else 0) < 16 := by
      split
      · exact hs _ (by omega)
      · omega
    have h0 : s (2 * i) < 16 := hs _ h2i
    simp only [if_pos hi]
    unfold packAt
    omega
  refine ⟨_, _, PackSeq_ok d1 s ((len + 1) / 2) len (by omega) hs,
    UnpackSeq_ok d2 _ len ((len + 1) / 2) (by omega) hb, fun i hi => ?_⟩
  rw [if_pos hi]
  unfold unpackAt
  have hi2 : i / 2 < (len + 1) / 2 := by omega
  have hp : (fun j => if j < (len + 1) / 2 then packAt s len j else d1 j) (i / 2)
      = packAt s len (i / 2) := if_pos hi2
  by_cases he : i % 2 = 0
  · rw [if_pos he, hp]
    unfold packAt
    rw [show 2 * (i / 2) = i by omega]
    have ht : (if i + 1 < len then s (i + 1) else 0) < 16 := by
      split
      · exact hs _ (by omega)
      · omega
    omega
  · rw [if_neg he, hp]
    unfold packAt
    rw [show 2 * (i / 2) + 1 = i by omega, if_pos hi]
    have h0 : s i < 16 := hs _ hi
    omega

/-- Witness for C3: the round trip on [1, 2, 3] (odd length) returns [1, 2, 3]. -/
theorem claim_C3_witness :
    ∃ packed unpacked,
      PackSeq (mkMem []) 2 (mkMem [1, 2, 3]) 3 = Except.ok packed ∧
      UnpackSeq (mkMem []) 3 packed 2 = Except.ok unpacked ∧
      ∀ i, i < 3 → unpacked i = mkMem [1, 2, 3] i :=
  claim_C3_roundTrip (mkMem [1, 2, 3]) (mkMem []) (mkMem []) 3 (by decide)

/-- Claim C7: calling UnpackSeq with len(src) different from (len(dst)+1)/2
fails with the descriptive panic message; the length check precedes every
write, so the model returns the error without producing any destination
memory. -/
theorem claim_C7_unpackSeqError (dst src : Mem) (dstLen srcLen : Nat)
    (h : srcLen ≠ (dstLen + 1) / 2) :
    UnpackSeq dst dstLen src srcLen =
      Except.error "UnpackSeq() requires len(src) == (len(dst) + 1) / 2." := by
  unfold UnpackSeq
  rw [if_pos (by omega)]

/-- Witness for C7: a 2-byte destination with an empty source fails. -/
theorem claim_C7_witness :
    UnpackSeq (mkMem []) 2 (mkMem []) 0 =
      Except.error "UnpackSeq() requires len(src) == (len(dst) + 1) / 2." :=
  claim_C7_unpackSeqError (mkMem []) (mkMem []) 2 0 (by omega)

/-- Claim C10: every safe entry point accepts empty input: zero-length calls
return normally (no panic) and leave every buffer byte-for-byte unchanged. -/
theorem claim_C10_emptyInputs (dst src seq8 : Mem) (t : Vec) :
    UnpackSeq dst 0 src 0 = Except.ok dst ∧
    PackSeq dst 0 src 0 = Except.ok dst ∧
    UnpackAndReplaceSeq dst 0 src 0 t = Except.ok dst ∧
    ReverseComp dst 0 src 0 = Except.ok dst ∧
    ReverseCompInplace seq8 0 = seq8 := by
  have hloop : revCompInplaceScalarLoop seq8 0 (0 - 1) 0 = seq8 := by
    unfold revCompInplaceScalarLoop
    rw [dif_pos (by omega)]
  refine ⟨rfl, rfl, rfl, rfl, ?_⟩
  unfold ReverseCompInplace
  rw [if_pos (by decide), if_neg (by decide), hloop]

/-! ### The reverse-complement transforms -/

theorem pshufb_apply (x idx : Vec) (j : Nat) :
    pshufb x idx j = if idx j % 256 ≥ 128 then 0 else x (idx j % 16) := rfl

theorem rcTab_lt : ∀ x, x < 16 → rcTab x < 16 := by
  decide

theorem rcTab_invol : ∀ x, x < 16 → rcTab (rcTab x) = x := by
  decide

theorem land8 (a : Nat) : Nat.land a 8 = if a / 8 % 2 = 1 then 8 else 0 := by
  have h2 : Nat.land a 8 = (a.testBit 3).toNat * 2 ^ 3 := Nat.and_two_pow a 3
  rw [h2, Nat.testBit_to_div_mod]
  have h8 : (2 : Nat) ^ 3 = 8 := by norm_num
  rw [h8]
  by_cases hd : a / 8 % 2 = 1
  · rw [if_pos hd]
    simp [hd]
  · rw [if_neg hd]
    simp [hd]

theorem revCompVec_spec (v : Vec) (hv : ∀ k, k < 16 → v k < 16) :
    ∀ k, k < 16 → revCompVec v k = rcTab (v (15 - k)) := by
  intro k hk
  unfold revCompVec
  rw [pshufb_apply]
  have hin : pshufb v Reverse8 k = v (15 - k) := by
    rw [pshufb_apply, show Reverse8 k % 256 = 15 - k from by unfold Reverse8; omega,
      if_neg (by omega), show Reverse8 k % 16 = 15 - k from by unfold Reverse8; omega]
  rw [hin]
  have hvk : v (15 - k) < 16 := hv _ (by omega)
  rw [if_neg (by omega), show v (15 - k) % 16 = v (15 - k) by omega]
  rfl

theorem revCompScalarLoop_spec (dst src : Mem) (nByte cnt j : Nat) :
    revCompScalarLoop dst src nByte cnt j =
      if j < cnt then rcFinal src nByte j else dst j := by
  induction cnt with
  | zero => rw [if_neg (by omega)]; rfl
  | succ k ih =>
    unfold revCompScalarLoop
    rw [writeB_apply]
    by_cases h1 : j = k
    · rw [if_pos h1, if_pos (by omega), h1]
      rfl
    · rw [if_neg h1, ih]
      by_cases h3 : j < k
      · rw [if_pos h3, if_pos (by omega)]
      · rw [if_neg h3, if_neg (by omega)]

theorem revComp4Loop_spec (src : Mem) (n : Nat) (hb : ∀ i, i < n → src i < 16)
    (h16 : 16 ≤ n) (di si : Nat) (hsieq : si = n - 16 - di) (dst : Mem) (j : Nat)
    (hdi : di ≤ n - 16) :
    revComp4Loop src (n - 16) si di dst j =
      if di ≤ j ∧ j < lastDi (n - 16) di + 16 then rcFinal src n j else dst j := by
  have hw : ∀ dst1 j1, writeVec dst1 di (revCompVec (readVec src si)) j1 =
      if di ≤ j1 ∧ j1 < di + 16 then rcFinal src n j1 else dst1 j1 := by
    intro dst1 j1
    refine write1_spec dst1 di _ (rcFinal src n) (fun k hk => ?_) j1
    have hv : ∀ kk, kk < 16 → readVec src si kk < 16 := fun kk hkk => hb _ (by omega)
    rw [revCompVec_spec _ hv k hk, readVec_apply]
    unfold rcFinal
    rw [show si + (15 - k) = n - 1 - (di + k) by omega]
  unfold revComp4Loop
  by_cases h : n - 16 > di + 16
  · rw [dif_pos h]
    rw [revComp4Loop_spec src n hb h16 (di + 16) (si - 16) (by omega) _ j (by omega)]
    rw [lastDi_step (n - 16) di h]
    have hge := lastDi_ge (n - 16) (di + 16)
    by_cases hj : di + 16 ≤ j ∧ j < lastDi (n - 16) (di + 16) + 16
    · rw [if_pos hj, if_pos (by omega)]
    · rw [if_neg hj, hw]
      by_cases hj2 : di ≤ j ∧ j < di + 16
      · rw [if_pos hj2, if_pos (by omega)]
      · rw [if_neg hj2, if_neg (by omega)]
  · rw [dif_neg h, hw, lastDi_stop _ _ h]
termination_by (n - 16) - di
decreasing_by omega

theorem reverseComp4SSSE3Asm_spec (dst src : Mem) (n : Nat) (h16 : 16 ≤ n)
    (hb : ∀ i, i < n → src i < 16) (j : Nat) :
    reverseComp4SSSE3Asm dst src n j = if j < n then rcFinal src n j else dst j := by
  have hfin : ∀ k, k < 16 → revCompVec (readVec src 0) k = rcFinal src n (n - 16 + k) := by
    intro k hk
    have hv : ∀ kk, kk < 16 → readVec src 0 kk < 16 := fun kk hkk => hb _ (by omega)
    rw [revCompVec_spec _ hv k hk, readVec_apply]
    unfold rcFinal
    rw [show 0 + (15 - k) = n - 1 - (n - 16 + k) by omega]
  unfold reverseComp4SSSE3Asm
  rw [write1_spec _ (n - 16) _ (rcFinal src n) hfin j]
  rw [revComp4Loop_spec src n hb h16 0 (n - 16) (by omega) dst j (by omega)]
  have g1 := lastDi_ge (n - 16) 0
  have g2 := lastDi_le (n - 16) 0 (by omega)
  have g3 := lastDi_lb (n - 16) 0
  split_ifs <;> first | rfl | (exfalso; omega)

theorem ReverseComp_ok (dst src : Mem) (n : Nat) (hb : ∀ i, i < n → src i < 16) :
    ReverseComp dst n src n =
      Except.ok (fun j => if j < n then rcFinal src n j else dst j) := by
  unfold ReverseComp
  rw [if_neg (by omega)]
  by_cases hsc : n < bytesPerVec
  · rw [if_pos hsc]
    exact congrArg Except.ok (funext fun j => revCompScalarLoop_spec dst src n n j)
  · rw [if_neg hsc]
    exact congrArg Except.ok (funext fun j =>
      reverseComp4SSSE3Asm_spec dst src n (by unfold bytesPerVec at hsc; omega) hb j)

/-- Claim C4: for equal-length dst and src with all source codes below 16,
ReverseComp(dst, src) writes dst[i] = revCompTable[src[n-1-i]] at every
position, where revCompTable is the fixed table
{0, 8, 4, 12, 2, 10, 6, 14, 1, 9, 5, 13, 3, 11, 7, 15}. -/
theorem claim_C4_reverseComp (dst src : Mem) (n : Nat) (hb : ∀ i, i < n → src i < 16) :
    ∃ dst1, ReverseComp dst n src n = Except.ok dst1 ∧
      ∀ i, i < n → dst1 i = rcTab (src (n - 1 - i)) := by
  refine ⟨_, ReverseComp_ok dst src n hb, fun i hi => ?_⟩
  rw [if_pos hi]
  rfl

/-- Witness for C4: reverse-complementing [0, 1, 2, 3, 4] yields
[2, 12, 4, 8, 0]. -/
theorem claim_C4_witness :
    ∃ dst1, ReverseComp (mkMem []) 5 (mkMem [0, 1, 2, 3, 4]) 5 = Except.ok dst1 ∧
      dst1 0 = 2 ∧ dst1 4 = 0 := by
  obtain ⟨d, hd, hp⟩ := claim_C4_reverseComp (mkMem []) (mkMem [0, 1, 2, 3, 4]) 5 (by decide)
  exact ⟨d, hd, (hp 0 (by omega)).trans (by decide), (hp 4 (by omega)).trans (by decide)⟩

/-! ### The in-place reverse-complement -/

theorem inplaceBody_inv (m0 : Mem) (n : Nat) (hb : ∀ i, i < n → m0 i < 16)
    (si di : Nat) (hdieq : di = n - 16 - si) (m : Mem) (hsi : 2 * si + 16 ≤ n)
    (hInv : ∀ j, m j = if j < si ∨ (n - si ≤ j ∧ j < n) then rcFinal m0 n j else m0 j)
    (j : Nat) :
    writeVec (writeVec m si (revCompVec (readVec m di))) di (revCompVec (readVec m si)) j =
      if j < si + 16 ∨ (n - (si + 16) ≤ j ∧ j < n) then rcFinal m0 n j else m0 j := by
  have hmid : ∀ i, si ≤ i → i < n - si → m i = m0 i := fun i h1 h2 => by
    rw [hInv i, if_neg (by omega)]
  have hveca : ∀ k, k < 16 → revCompVec (readVec m si) k = rcFinal m0 n (di + k) := by
    intro k hk
    have hv : ∀ kk, kk < 16 → readVec m si kk < 16 := by
      intro kk hkk
      rw [readVec_apply, hmid (si + kk) (by omega) (by omega)]
      exact hb _ (by omega)
    rw [revCompVec_spec _ hv k hk, readVec_apply, hmid (si + (15 - k)) (by omega) (by omega)]
    unfold rcFinal
    rw [show si + (15 - k) = n - 1 - (di + k) by omega]
  have hvecb : ∀ k, k < 16 → revCompVec (readVec m di) k = rcFinal m0 n (si + k) := by
    intro k hk
    have hv : ∀ kk, kk < 16 → readVec m di kk < 16 := by
      intro kk hkk
      rw [readVec_apply, hmid (di + kk) (by omega) (by omega)]
      exact hb _ (by omega)
    rw [revCompVec_spec _ hv k hk, readVec_apply, hmid (di + (15 - k)) (by omega) (by omega)]
    unfold rcFinal
    rw [show di + (15 - k) = n - 1 - (si + k) by omega]
  rw [write1_spec _ di _ (rcFinal m0 n) hveca j, write1_spec m si _ (rcFinal m0 n) hvecb j,
    hInv j]
  split_ifs <;> first | rfl | (exfalso; omega)

theorem revComp4InplaceLoop_spec (m0 : Mem) (n : Nat) (hb : ∀ i, i < n → m0 i < 16)
    (ax : Nat) (hax : 2 * ax + 16 ≤ n) (si di : Nat) (hdieq : di = n - 16 - si)
    (m : Mem) (hsi : 2 * si + 16 ≤ n)
    (hInv : ∀ j, m j = if j < si ∨ (n - si ≤ j ∧ j < n) then rcFinal m0 n j else m0 j)
    (r : Mem × Nat × Nat) (hr : revComp4InplaceLoop ax si di m = r) :
    (∀ j, r.1 j = if j < r.2.1 ∨ (n - r.2.1 ≤ j ∧ j < n) then rcFinal m0 n j else m0 j) ∧
    r.2.2 = n - 16 - r.2.1 ∧ ax < r.2.1 ∧ r.2.1 % 16 = si % 16 ∧
    (r.2.1 ≤ ax + 16 ∨ r.2.1 = si + 16) := by
  unfold revComp4InplaceLoop at hr
  by_cases h : ax ≥ si + 16
  · rw [dif_pos h] at hr
    have IH := revComp4InplaceLoop_spec m0 n hb ax hax (si + 16) (di - 16) (by omega)
      _ (by omega) (inplaceBody_inv m0 n hb si di hdieq m hsi hInv) r hr
    refine ⟨IH.1, IH.2.1, IH.2.2.1, ?_, ?_⟩
    · have hm := IH.2.2.2.1
      omega
    · rcases IH.2.2.2.2 with h1 | h1
      · exact Or.inl h1
      · exact Or.inl (by omega)
  · rw [dif_neg h] at hr
    rw [← hr]
    exact ⟨fun j => inplaceBody_inv m0 n hb si di hdieq m hsi hInv j,
      show di - 16 = n - 16 - (si + 16) by omega,
      show ax < si + 16 by omega,
      show (si + 16) % 16 = si % 16 by omega,
      Or.inr rfl⟩
termination_by ax + 16 - si
decreasing_by omega

theorem revComp4LastThree_spec (m0 : Mem) (n : Nat) (hb : ∀ i, i < n → m0 i < 16)
    (si di : Nat) (hdieq : di = n - 16 - si) (m : Mem)
    (h1 : 2 * si + 32 ≤ n) (h2 : n ≤ 2 * si + 48)
    (hInv : ∀ j, m j = if j < si ∨ (n - si ≤ j ∧ j < n) then rcFinal m0 n j else m0 j)
    (j : Nat) :
    revComp4LastThree m si di j = if j < n then rcFinal m0 n j else m0 j := by
  have hmid : ∀ i, si ≤ i → i < n - si → m i = m0 i := fun i ha hb2 => by
    rw [hInv i, if_neg (by omega)]
  have hv1 : ∀ k, k < 16 → revCompVec (readVec m di) k = rcFinal m0 n (si + k) := by
    intro k hk
    have hv : ∀ kk, kk < 16 → readVec m di kk < 16 := by
      intro kk hkk
      rw [readVec_apply, hmid (di + kk) (by omega) (by omega)]
      exact hb _ (by omega)
    rw [revCompVec_spec _ hv k hk, readVec_apply, hmid (di + (15 - k)) (by omega) (by omega)]
    unfold rcFinal
    rw [show di + (15 - k) = n - 1 - (si + k) by omega]
  have hv6 : ∀ k, k < 16 →
      revCompVec (readVec m (si + 16)) k = rcFinal m0 n (di - 16 + k) := by
    intro k hk
    have hv : ∀ kk, kk < 16 → readVec m (si + 16) kk < 16 := by
      intro kk hkk
      rw [readVec_apply, hmid (si + 16 + kk) (by omega) (by omega)]
      exact hb _ (by omega)
    rw [revCompVec_spec _ hv k hk, readVec_apply,
      hmid (si + 16 + (15 - k)) (by omega) (by omega)]
    unfold rcFinal
    rw [show si + 16 + (15 - k) = n - 1 - (di - 16 + k) by omega]
  have hv5 : ∀ k, k < 16 → revCompVec (readVec m si) k = rcFinal m0 n (di + k) := by
    intro k hk
    have hv : ∀ kk, kk < 16 → readVec m si kk < 16 := by
      intro kk hkk
      rw [readVec_apply, hmid (si + kk) (by omega) (by omega)]
      exact hb _ (by omega)
    rw [revCompVec_spec _ hv k hk, readVec_apply, hmid (si + (15 - k)) (by omega) (by omega)]
    unfold rcFinal
    rw [show si + (15 - k) = n - 1 - (di + k) by omega]
  unfold revComp4LastThree
  rw [write1_spec _ di _ (rcFinal m0 n) hv5 j,
    write1_spec _ (di - 16) _ (rcFinal m0 n) hv6 j,
    write1_spec m si _ (rcFinal m0 n) hv1 j, hInv j]
  split_ifs <;> first | rfl | (exfalso; omega)

theorem reverseComp4InplaceSSSE3Asm_spec (m0 : Mem) (n : Nat) (h16 : 16 < n)
    (hb : ∀ i, i < n → m0 i < 16) (j : Nat) :
    reverseComp4InplaceSSSE3Asm m0 n j = if j < n then rcFinal m0 n j else m0 j := by
  have hInv0 : ∀ j1, m0 j1 =
      if j1 < 0 ∨ (n - 0 ≤ j1 ∧ j1 < n) then rcFinal m0 n j1 else m0 j1 := by
    intro j1
    rw [if_neg (by omega)]
  have hl := land8 ((n - 1) / 2)
  unfold reverseComp4InplaceSSSE3Asm
  by_cases ht : (n - 1) / 2 / 8 % 2 = 1
  · rw [if_pos ht] at hl
    rw [hl]
    rw [if_neg (show ¬(n - 1) / 2 + 2 * 8 < 24 by omega)]
    rw [if_pos (show (8 : Nat) ≠ 0 by omega)]
    obtain ⟨hInvF, hdi2, hgt, hmod, hbound⟩ :=
      revComp4InplaceLoop_spec m0 n hb ((n - 1) / 2 + 2 * 8 - 24) (by omega) 0 (n - 16)
        (by omega) m0 (by omega) hInv0 _ rfl
    rw [hInvF j]
    by_cases hj : j < n
    · rw [if_pos (by omega), if_pos hj]
    · rw [if_neg (by omega), if_neg hj]
  · rw [if_neg ht] at hl
    rw [hl]
    by_cases hcx : (n - 1) / 2 + 2 * 0 < 24
    · rw [if_pos hcx]
      exact revComp4LastThree_spec m0 n hb 0 (n - 16) (by omega) m0 (by omega) (by omega)
        hInv0 j
    · rw [if_neg hcx, if_neg (show ¬(0 : Nat) ≠ 0 by omega)]
      obtain ⟨hInvF, hdi2, hgt, hmod, hbound⟩ :=
        revComp4InplaceLoop_spec m0 n hb ((n - 1) / 2 + 2 * 0 - 24) (by omega) 0 (n - 16)
          (by omega) m0 (by omega) hInv0 _ rfl
      rw [hdi2]
      exact revComp4LastThree_spec m0 n hb _ _ rfl _ (by omega) (by omega) hInvF j

theorem revCompInplaceScalarLoop_spec (m0 : Mem) (n : Nat) (hb : ∀ i, i < n → m0 i < 16)
    (idx invIdx : Nat) (hiv : invIdx = n - 1 - idx) (m : Mem) (hidx : idx ≤ n / 2)
    (hInv : ∀ j, m j = if j < idx ∨ (n - idx ≤ j ∧ j < n) then rcFinal m0 n j else m0 j)
    (j : Nat) :
    revCompInplaceScalarLoop m idx invIdx (n / 2) j =
      if j < n / 2 ∨ (n - n / 2 ≤ j ∧ j < n) then rcFinal m0 n j else m0 j := by
  unfold revCompInplaceScalarLoop
  by_cases hstop : n / 2 ≤ idx
  · rw [dif_pos hstop, hInv j]
    have heq : idx = n / 2 := by omega
    rw [heq]
  · rw [dif_neg hstop]
    have hmid : ∀ i, idx ≤ i → i < n - idx → m i = m0 i := fun i h1 h2 => by
      rw [hInv i, if_neg (by omega)]
    refine revCompInplaceScalarLoop_spec m0 n hb (idx + 1) (invIdx - 1) (by omega) _
      (by omega) (fun j1 => ?_) j
    rw [writeB_apply, writeB_apply]
    by_cases hj1 : j1 = invIdx
    · rw [if_pos hj1, hmid idx (by omega) (by omega), hj1, if_pos (by omega)]
      unfold rcFinal
      rw [show n - 1 - invIdx = idx by omega]
    · rw [if_neg hj1]
      by_cases hj2 : j1 = idx
      · rw [if_pos hj2, hmid invIdx (by omega) (by omega), hj2, if_pos (by omega)]
        unfold rcFinal
        rw [show n - 1 - idx = invIdx by omega]
      · rw [if_neg hj2, hInv j1]
        by_cases hc : j1 < idx ∨ (n - idx ≤ j1 ∧ j1 < n)
        · rw [if_pos hc, if_pos (by omega)]
        · rw [if_neg hc, if_neg (by omega)]
termination_by n / 2 - idx
decreasing_by omega

theorem ReverseCompInplace_spec (m0 : Mem) (n : Nat) (hb : ∀ i, i < n → m0 i < 16)
    (j : Nat) :
    ReverseCompInplace m0 n j = if j < n then rcFinal m0 n j else m0 j := by
  have hInv0 : ∀ j1, m0 j1 =
      if j1 < 0 ∨ (n - 0 ≤ j1 ∧ j1 < n) then rcFinal m0 n j1 else m0 j1 :=
    fun j1 => by rw [if_neg (by omega)]
  unfold ReverseCompInplace
  by_cases hsc : n ≤ bytesPerVec
  · rw [if_pos hsc]
    have hloop := revCompInplaceScalarLoop_spec m0 n hb 0 (n - 1) (by omega) m0 (by omega)
      hInv0
    by_cases hodd : n % 2 = 1
    · rw [if_pos hodd, writeB_apply]
      by_cases hj : j = n / 2
      · rw [if_pos hj, hloop (n / 2), if_neg (by omega), hj, if_pos (by omega)]
        unfold rcFinal
        rw [show n - 1 - (n / 2) = n / 2 by omega]
      · rw [if_neg hj, hloop j]
        by_cases hc : j < n / 2 ∨ (n - n / 2 ≤ j ∧ j < n)
        · rw [if_pos hc, if_pos (by omega)]
        · rw [if_neg hc, if_neg (by omega)]
    · rw [if_neg hodd, hloop j]
      by_cases hc : j < n / 2 ∨ (n - n / 2 ≤ j ∧ j < n)
      · rw [if_pos hc, if_pos (by omega)]
      · rw [if_neg hc, if_neg (by omega)]
  · rw [if_neg hsc]
    exact reverseComp4InplaceSSSE3Asm_spec m0 n (by unfold bytesPerVec at hsc; omega) hb j

/-- Claim C5: the reverse-complement transform is an involution: the 4-bit
table satisfies table[table[x]] = x for every code, applying the copy variant
twice restores the sequence, and applying ReverseCompInplace twice restores
the buffer. -/
theorem claim_C5_involution (s d1 d2 : Mem) (n : Nat) (hs : ∀ i, i < n → s i < 16) :
    (∀ x, x < 16 → rcTab (rcTab x) = x) ∧
    (∃ r1 r2, ReverseComp d1 n s n = Except.ok r1 ∧
      ReverseComp d2 n r1 n = Except.ok r2 ∧ ∀ i, i < n → r2 i = s i) ∧
    (∀ i, i < n → ReverseCompInplace (ReverseCompInplace s n) n i = s i) := by
  refine ⟨rcTab_invol, ?_, ?_⟩
  · have hr1b : ∀ i, i < n → (fun j => if j < n then rcFinal s n j else d1 j) i < 16 := by
      intro i hi
      have hx : (fun j => if j < n then rcFinal s n j else d1 j) i = rcFinal s n i :=
        if_pos hi
      rw [hx]
      unfold rcFinal
      exact rcTab_lt _ (hs _ (by omega))
    refine ⟨_, _, ReverseComp_ok d1 s n hs, ReverseComp_ok d2 _ n hr1b, fun i hi => ?_⟩
    rw [if_pos hi]
    show rcTab ((fun j => if j < n then rcFinal s n j else d1 j) (n - 1 - i)) = s i
    have h3 : (fun j => if j < n then rcFinal s n j else d1 j) (n - 1 - i) =
        rcFinal s n (n - 1 - i) := if_pos (by omega)
    rw [h3]
    show rcTab (rcTab (s (n - 1 - (n - 1 - i)))) = s i
    rw [show n - 1 - (n - 1 - i) = i by omega]
    exact rcTab_invol _ (hs _ hi)
  · intro i hi
    have hb1 : ∀ i2, i2 < n → ReverseCompInplace s n i2 < 16 := by
      intro i2 hi2
      rw [ReverseCompInplace_spec s n hs i2, if_pos hi2]
      unfold rcFinal
      exact rcTab_lt _ (hs _ (by omega))
    rw [ReverseCompInplace_spec _ n hb1 i, if_pos hi]
    unfold rcFinal
    rw [ReverseCompInplace_spec s n hs (n - 1 - i), if_pos (by omega)]
    unfold rcFinal
    rw [show n - 1 - (n - 1 - i) = i by omega]
    exact rcTab_invol _ (hs _ hi)

/-- Witness for C5 at the 3-byte sequence [1, 2, 3]. -/
theorem claim_C5_witness :
    (∀ x, x < 16 → rcTab (rcTab x) = x) ∧
    (∃ r1 r2, ReverseComp (mkMem []) 3 (mkMem [1, 2, 3]) 3 = Except.ok r1 ∧
      ReverseComp (mkMem [9]) 3 r1 3 = Except.ok r2 ∧
      ∀ i, i < 3 → r2 i = mkMem [1, 2, 3] i) ∧
    (∀ i, i < 3 →
      ReverseCompInplace (ReverseCompInplace (mkMem [1, 2, 3]) 3) 3 i = mkMem [1, 2, 3] i) :=
  claim_C5_involution (mkMem [1, 2, 3]) (mkMem []) (mkMem [9]) 3 (by decide)

/-- Claim C6: on a buffer of length exactly 2w+1 = 33 bytes of valid codes,
the in-place variant produces the same contents as the copy variant applied
to a fresh copy of the same input. -/
theorem claim_C6_inplaceMatchesCopy (buf dst : Mem) (hb : ∀ i, i < 33 → buf i < 16) :
    ∃ r, ReverseComp dst 33 buf 33 = Except.ok r ∧
      ∀ i, i < 33 → ReverseCompInplace buf 33 i = r i := by
  refine ⟨_, ReverseComp_ok dst buf 33 hb, fun i hi => ?_⟩
  rw [ReverseCompInplace_spec buf 33 hb i, if_pos hi]
  have hx : (fun j => if j < 33 then rcFinal buf 33 j else dst j) i = rcFinal buf 33 i :=
    if_pos hi
  exact hx.symm

/-- Witness for C6 at the 33-byte buffer i ↦ i % 16. -/
theorem claim_C6_witness :
    ∃ r, ReverseComp (mkMem []) 33 (fun i => i % 16) 33 = Except.ok r ∧
      ∀ i, i < 33 → ReverseCompInplace (fun i => i % 16) 33 i = r i :=
  claim_C6_inplaceMatchesCopy (fun i => i % 16) (mkMem []) (by decide)

/-! ### The table-driven unpack -/

theorem unpackRepAt_even (t : Vec) (src : Mem) (q : Nat) :
    unpackRepAt t src (2 * q) = t (src q / 16) := by
  unfold unpackRepAt
  rw [if_pos (by omega), show 2 * q / 2 = q by omega]

theorem unpackRepAt_odd (t : Vec) (src : Mem) (q : Nat) :
    unpackRepAt t src (2 * q + 1) = t (src q % 16) := by
  unfold unpackRepAt
  rw [if_neg (by omega), show (2 * q + 1) / 2 = q by omega]

theorem unpackAndReplaceBody_spec (t : Vec) (src : Mem) (d : Nat)
    (hs : ∀ i, i < d + 16 → src i < 256) :
    ∀ k, k < 16 →
      (unpackAndReplaceBody t (readVec src d)).1 k = unpackRepAt t src (2 * d + k) ∧
      (unpackAndReplaceBody t (readVec src d)).2 k = unpackRepAt t src (2 * d + 16 + k) := by
  intro k hk
  have hhi := pand0f_psrlq4 src d hs
  have hx4 : ∀ jj, jj < 16 →
      pshufb t (pand0f (readVec src d)) jj = t (src (d + jj) % 16) := by
    intro jj hjj
    rw [pshufb_apply]
    have hlo : pand0f (readVec src d) jj = src (d + jj) % 16 := rfl
    rw [hlo, if_neg (by omega), show src (d + jj) % 16 % 16 = src (d + jj) % 16 by omega]
  have hx5 : ∀ jj, jj < 16 →
      pshufb t (pand0f (psrlq4 (readVec src d))) jj = t (src (d + jj) / 16) := by
    intro jj hjj
    rw [pshufb_apply, hhi jj hjj]
    have hbb : src (d + jj) < 256 := hs _ (by omega)
    rw [if_neg (by omega), show src (d + jj) / 16 % 16 = src (d + jj) / 16 by omega]
  unfold unpackAndReplaceBody punpcklbw punpckhbw
  dsimp only
  constructor
  · by_cases he : k % 2 = 0
    · rw [if_pos he, hx5 (k / 2) (by omega),
        show 2 * d + k = 2 * (d + k / 2) by omega, unpackRepAt_even]
    · rw [if_neg he, hx4 (k / 2) (by omega),
        show 2 * d + k = 2 * (d + k / 2) + 1 by omega, unpackRepAt_odd]
  · by_cases he : k % 2 = 0
    · rw [if_pos he, hx5 (k / 2 + 8) (by omega),
        show 2 * d + 16 + k = 2 * (d + (k / 2 + 8)) by omega, unpackRepAt_even]
    · rw [if_neg he, hx4 (k / 2 + 8) (by omega),
        show 2 * d + 16 + k = 2 * (d + (k / 2 + 8)) + 1 by omega, unpackRepAt_odd]

theorem unpackAndReplaceSeqOddSSSE3Asm_spec (dst src : Mem) (t : Vec) (n : Nat)
    (h16 : 16 ≤ n) (hs : ∀ i, i < n → src i < 256) (j : Nat) :
    unpackAndReplaceSeqOddSSSE3Asm dst src t n j =
      if j < 2 * n then unpackRepAt t src j else dst j := by
  unfold unpackAndReplaceSeqOddSSSE3Asm
  exact nibbleOddAsm_spec (unpackAndReplaceBody t) src n (unpackRepAt t src) h16
    (fun d hd => unpackAndReplaceBody_spec t src d (fun i hi => hs i (by omega))) dst j

theorem unpackAndReplaceScalarLoop_spec (dst src : Mem) (t : Vec) (n j : Nat) :
    unpackAndReplaceScalarLoop dst src t n j =
      if j < 2 * n then unpackRepAt t src j else dst j := by
  induction n with
  | zero => rw [if_neg (by omega)]; rfl
  | succ k ih =>
    unfold unpackAndReplaceScalarLoop
    rw [writeB_apply, writeB_apply]
    by_cases h1 : j = 2 * k + 1
    · rw [if_pos h1, if_pos (by omega), h1, unpackRepAt_odd]
    · rw [if_neg h1]
      by_cases h2 : j = 2 * k
      · rw [if_pos h2, if_pos (by omega), h2, unpackRepAt_even]
      · rw [if_neg h2, ih]
        by_cases h3 : j < 2 * k
        · rw [if_pos h3, if_pos (by omega)]
        · rw [if_neg h3, if_neg (by omega)]

theorem UnpackAndReplaceSeq_ok (dst src : Mem) (t : Vec) (dstLen srcLen : Nat)
    (hlen : srcLen = dstLen / 2 + dstLen % 2) (hs : ∀ i, i < srcLen → src i < 256) :
    UnpackAndReplaceSeq dst dstLen src srcLen t =
      Except.ok (fun j => if j < dstLen then unpackRepAt t src j else dst j) := by
  unfold UnpackAndReplaceSeq
  rw [if_neg (show ¬srcLen ≠ dstLen / 2 + dstLen % 2 by omega)]
  refine congrArg Except.ok (funext fun j => ?_)
  have hX : ∀ j1, (if dstLen / 2 < bytesPerVec then
      unpackAndReplaceScalarLoop dst src t (dstLen / 2)
      else unpackAndReplaceSeqOddSSSE3Asm dst src t (dstLen / 2)) j1 =
      if j1 < 2 * (dstLen / 2) then unpackRepAt t src j1 else dst j1 := by
    intro j1
    by_cases hsc : dstLen / 2 < bytesPerVec
    · rw [if_pos hsc, unpackAndReplaceScalarLoop_spec]
    · rw [if_neg hsc]
      exact unpackAndReplaceSeqOddSSSE3Asm_spec dst src t (dstLen / 2)
        (by unfold bytesPerVec at hsc; omega) (fun i hi => hs i (by omega)) j1
  by_cases hodd : dstLen % 2 = 1
  · rw [if_pos hodd, writeB_apply]
    by_cases hj : j = 2 * (dstLen / 2)
    · rw [if_pos hj, if_pos (by omega), hj, unpackRepAt_even]
    · rw [if_neg hj, hX]
      by_cases h3 : j < 2 * (dstLen / 2)
      · rw [if_pos h3, if_pos (by omega)]
      · rw [if_neg h3, if_neg (by omega)]
  · rw [if_neg hodd, hX]
    by_cases h3 : j < 2 * (dstLen / 2)
    · rw [if_pos h3, if_pos (by omega)]
    · rw [if_neg h3, if_neg (by omega)]

/-- Claim C8: for every 16-entry table and every dst, src with len(src) equal
to (len(dst)+1)/2, UnpackAndReplaceSeq fills dst[p] with
table[src[p/2] >> 4] at even p and table[src[p/2] & 15] at odd p: the
composition of the unpack transform with the per-nibble table lookup. -/
theorem claim_C8_unpackAndReplace (dst src : Mem) (t : Vec) (dstLen srcLen : Nat)
    (hlen : srcLen = (dstLen + 1) / 2) (hs : ∀ i, i < srcLen → src i < 256) :
    ∃ dst1, UnpackAndReplaceSeq dst dstLen src srcLen t = Except.ok dst1 ∧
      ∀ p, p < dstLen →
        dst1 p = if p % 2 = 0 then t (src (p / 2) / 16) else t (src (p / 2) % 16) := by
  refine ⟨_, UnpackAndReplaceSeq_ok dst src t dstLen srcLen (by omega) hs, fun p hp => ?_⟩
  rw [if_pos hp]
  rfl

/-- Witness for C8: unpacking 0x12 through the table k ↦ 100 + k gives
[101, 102]. -/
theorem claim_C8_witness :
    ∃ dst1, UnpackAndReplaceSeq (mkMem []) 2 (mkMem [18]) 1 (fun k => 100 + k) =
      Except.ok dst1 ∧ dst1 0 = 101 ∧ dst1 1 = 102 := by
  obtain ⟨d, hd, hp⟩ := claim_C8_unpackAndReplace (mkMem []) (mkMem [18])
    (fun k => 100 + k) 2 1 (by decide) (by decide)
  exact ⟨d, hd, (hp 0 (by omega)).trans (by decide), (hp 1 (by omega)).trans (by decide)⟩

/-! ### The 2-bit-alphabet tiny reverse-complement -/

/-- Claim C9: the program's 2-bit-alphabet reverse-complement transform
(reverseComp2TinySSSE3Asm, complement = XOR with the Mask0303 constant)
reverses the first n source bytes and xors each with 3. -/
theorem claim_C9_reverseComp2 (dst src : Mem) (n : Nat) (hn : n ≤ 16) :
    ∀ k, k < n → reverseComp2TinySSSE3Asm dst src n k = Nat.xor (src (n - 1 - k)) 3 := by
  intro k hk
  unfold reverseComp2TinySSSE3Asm
  rw [writeVec_apply, if_pos (by omega)]
  show Nat.xor
    (pshufb (readVec src 0) (paddb Reverse8Minus16 fun _ => n % 256) (k - 0)) 3 = _
  rw [Nat.sub_zero]
  have hidx : paddb Reverse8Minus16 (fun _ => n % 256) k = n - 1 - k := by
    show (255 - k + n % 256) % 256 = n - 1 - k
    omega
  rw [pshufb_apply, hidx, if_neg (by omega),
    show (n - 1 - k) % 16 = n - 1 - k by omega, readVec_apply, Nat.zero_add]

/-- Witness for C9: on input [0, 0, 1, 2] the transform produces
[1, 2, 3, 3]. -/
theorem claim_C9_witness :
    reverseComp2TinySSSE3Asm (fun _ => 0) (mkMem [0, 0, 1, 2]) 4 0 = 1 ∧
    reverseComp2TinySSSE3Asm (fun _ => 0) (mkMem [0, 0, 1, 2]) 4 1 = 2 ∧
    reverseComp2TinySSSE3Asm (fun _ => 0) (mkMem [0, 0, 1, 2]) 4 2 = 3 ∧
    reverseComp2TinySSSE3Asm (fun _ => 0) (mkMem [0, 0, 1, 2]) 4 3 = 3 := by
  have h := claim_C9_reverseComp2 (fun _ => 0) (mkMem [0, 0, 1, 2]) 4 (by omega)
  exact ⟨(h 0 (by omega)).trans (by decide), (h 1 (by omega)).trans (by decide),
    (h 2 (by omega)).trans (by decide), (h 3 (by omega)).trans (by decide)⟩

end BioSimd
